import Mathlib

/-!
Verification development for the Barnard exact test core of this repository
(`scipy/stats/_hypotests.py`: `barnard_exact`,
`_binomial_maximisation_of_p_value_with_nuisance_param`,
`_compute_log_combinations`).

Modelling conventions (shallow embedding, exact arithmetic):

* Counts and indices are `Nat` / `Int`; real-valued quantities computed by the
  source in IEEE doubles are modelled in exact rational arithmetic `ℚ`.
* The Wald statistic `T = (p1 - p2) / sqrt(variance)` is irrational in general,
  so field entries are encoded by the inductive `SVal`:
  `SVal.node n v` denotes the real number `n / sqrt v` (with `0 < v` at every
  point the program actually produces), and `SVal.top` / `SVal.bot` denote the
  IEEE infinities `+inf` / `-inf` that `(p1 - p2) / sqrt 0` yields when
  `p1 ≠ p2`.  The IEEE `NaN` produced by `0 / 0` is `Option.none` one level up
  (`waldRaw`, `waldField`).  The noncomputable `SVal.denote` interprets an
  `SVal` in the extended reals `EReal`; all operational definitions
  (comparisons, masks, the whole maximisation pipeline) are computable.
* The float result record of the source is `BarnardResult`; its `statistic`
  field is an `Option SVal` whose `none` models the float `NaN` of the
  degenerate zero-column branch.
-/

/-- Extended statistic value: `node n v` denotes `n / Real.sqrt v`
(the program only ever builds it with `0 < v`), `top` and `bot` are the
IEEE infinities obtained from dividing a nonzero number by `sqrt 0 = +0`. -/
inductive SVal : Type where
  | bot : SVal
  | top : SVal
  | node : ℚ → ℚ → SVal
  deriving DecidableEq, Repr

/-- Well-formedness: the `node` encoding is only meaningful for a positive
variance argument. -/
def SVal.WF : SVal → Prop
  | .bot => True
  | .top => True
  | .node _ v => 0 < v

/-- Decidable order test on encoded statistic values: `sle a b` decides
`denote a ≤ denote b`.  For finite nodes it uses that `x ↦ x * |x|` is
strictly monotone, turning `n / sqrt v ≤ m / sqrt w` into the rational
inequality `n * |n| * w ≤ m * |m| * v`. -/
def SVal.sle : SVal → SVal → Bool
  | .bot, _ => true
  | .top, .top => true
  | .top, .bot => false
  | .top, .node _ _ => false
  | .node _ _, .bot => false
  | .node _ _, .top => true
  | .node n v, .node m w => decide (n * |n| * w ≤ m * |m| * v)

/-- Absolute value on encoded statistic values (both infinities map to
`top`, mirroring `np.abs` on floats). -/
def SVal.sabs : SVal → SVal
  | .bot => .top
  | .top => .top
  | .node n v => .node |n| v

/-- Negation on encoded statistic values. -/
def SVal.sneg : SVal → SVal
  | .bot => .top
  | .top => .bot
  | .node n v => .node (-n) v

/-- Interpretation of an encoded statistic value in the extended reals. -/
noncomputable def SVal.denote : SVal → EReal
  | .bot => ⊥
  | .top => ⊤
  | .node n v => ((n : ℝ) / Real.sqrt (v : ℝ) : ℝ)

/-- Absolute value on `EReal`, defined order-theoretically. -/
noncomputable def eabs (x : EReal) : EReal := max x (-x)

/-- IEEE-754 style division of two (finite) reals into the extended reals
with `none` playing the role of `NaN`: dividing a nonzero number by zero
yields a signed infinity, `0 / 0` yields `NaN`. -/
noncomputable def idiv (a b : ℝ) : Option EReal :=
  if b = 0 then
    if a = 0 then none
    else if 0 < a then some ⊤ else some ⊥
  else some ((a / b : ℝ) : EReal)

/-- Proportion `p1 = x1 / total_col_1` (and `p2 = x2 / total_col_2`) from
`barnard_exact`:  `p1, p2 = x1 / total_col_1, x2 / total_col_2`. -/
def propQ (c : ℕ) (x : ℕ) : ℚ := (x : ℚ) / (c : ℚ)

/-- Variance field of `barnard_exact`: pooled variant
`p (1 - p) (1 / c1 + 1 / c2)` with `p = (x1 + x2) / (c1 + c2)`, unpooled
variant `p1 (1 - p1) / c1 + p2 (1 - p2) / c2`. -/
def varQ (pooled : Bool) (c1 c2 x1 x2 : ℕ) : ℚ :=
  if pooled then
    ((x1 + x2 : ℚ) / (c1 + c2 : ℚ)) * (1 - (x1 + x2 : ℚ) / (c1 + c2 : ℚ))
      * (1 / (c1 : ℚ) + 1 / (c2 : ℚ))
  else
    propQ c1 x1 * (1 - propQ c1 x1) / (c1 : ℚ)
      + propQ c2 x2 * (1 - propQ c2 x2) / (c2 : ℚ)

/-- Raw Wald statistic entry before the `wald_statistic[p1 == p2] = 0`
substitution: `np.divide((p1 - p2), np.sqrt(variances))` under
`np.errstate(divide="ignore", invalid="ignore")`.  `none` is the IEEE `NaN`
arising from `0 / 0`. -/
def waldRaw (pooled : Bool) (c1 c2 x1 x2 : ℕ) : Option SVal :=
  let num := propQ c1 x1 - propQ c2 x2
  let v := varQ pooled c1 c2 x1 x2
  if v = 0 then
    if num = 0 then none
    else if 0 < num then some .top else some .bot
  else some (.node num v)

/-- Wald statistic entry after the substitution
`wald_statistic[p1 == p2] = 0` (which removes the `NaN` values): exactly
zero wherever `p1 == p2`, the raw quotient elsewhere. -/
def waldField (pooled : Bool) (c1 c2 x1 x2 : ℕ) : Option SVal :=
  if propQ c1 x1 = propQ c2 x2 then some (.node 0 1)
  else waldRaw pooled c1 c2 x1 x2

/-- The (never-`NaN`) Wald statistic field used by the rejection mask and as
the reported statistic; `waldField_ne_none` below shows the default is never
taken. -/
def waldS (pooled : Bool) (c1 c2 x1 x2 : ℕ) : SVal :=
  (waldField pooled c1 c2 x1 x2).getD (.node 0 1)

theorem waldField_ne_none (pooled : Bool) (c1 c2 x1 x2 : ℕ) :
    waldField pooled c1 c2 x1 x2 ≠ none := by
  unfold waldField waldRaw
  by_cases h : propQ c1 x1 = propQ c2 x2
  · simp [h]
  · simp only [if_neg h]
    by_cases hv : varQ pooled c1 c2 x1 x2 = 0
    · have hnum : propQ c1 x1 - propQ c2 x2 ≠ 0 := sub_ne_zero.mpr h
      simp only [hv, if_pos rfl, if_neg hnum]
      by_cases hpos : 0 < propQ c1 x1 - propQ c2 x2 <;> simp [hpos]
    · simp [hv]

/-- Closed form of `waldS` obtained by discharging the `Option` default. -/
theorem waldS_eq (pooled : Bool) (c1 c2 x1 x2 : ℕ) :
    waldS pooled c1 c2 x1 x2 =
      if propQ c1 x1 = propQ c2 x2 then .node 0 1
      else if varQ pooled c1 c2 x1 x2 = 0 then
        (if 0 < propQ c1 x1 - propQ c2 x2 then .top else .bot)
      else .node (propQ c1 x1 - propQ c2 x2) (varQ pooled c1 c2 x1 x2) := by
  unfold waldS waldField waldRaw
  by_cases h : propQ c1 x1 = propQ c2 x2
  · simp [h]
  · have hnum : propQ c1 x1 - propQ c2 x2 ≠ 0 := sub_ne_zero.mpr h
    simp only [if_neg h]
    by_cases hv : varQ pooled c1 c2 x1 x2 = 0
    · simp only [hv, if_pos rfl, if_neg hnum]
      by_cases hpos : 0 < propQ c1 x1 - propQ c2 x2 <;> simp [hpos]
    · simp [hv]

theorem mulAbs_strictMono : StrictMono (fun x : ℝ => x * |x|) := by
  intro a b hab
  rcases le_or_lt 0 a with ha | ha
  · have hb : 0 < b := lt_of_le_of_lt ha hab
    simp only [abs_of_nonneg ha, abs_of_pos hb]
    exact mul_self_lt_mul_self ha hab
  · rcases le_or_lt 0 b with hb | hb
    · have h1 : a * |a| < 0 := mul_neg_of_neg_of_pos ha (abs_pos.mpr (ne_of_lt ha))
      have h2 : 0 ≤ b * |b| := mul_nonneg hb (abs_nonneg b)
      exact lt_of_lt_of_le h1 h2
    · simp only [abs_of_neg ha, abs_of_neg hb]
      have h3 : b * b < a * a := by
        have := mul_self_lt_mul_self (neg_nonneg.mpr (le_of_lt hb)) (neg_lt_neg hab)
        simpa [neg_mul_neg] using this
      nlinarith

theorem div_sqrt_mul_abs (n v : ℝ) (hv : 0 < v) :
    (n / Real.sqrt v) * |n / Real.sqrt v| = n * |n| / v := by
  have hs : 0 < Real.sqrt v := Real.sqrt_pos.mpr hv
  rw [abs_div, abs_of_pos hs]
  rw [div_mul_div_comm, Real.mul_self_sqrt (le_of_lt hv)]

theorem div_sqrt_le_iff (n v m w : ℝ) (hv : 0 < v) (hw : 0 < w) :
    n / Real.sqrt v ≤ m / Real.sqrt w ↔ n * |n| * w ≤ m * |m| * v := by
  rw [← mulAbs_strictMono.le_iff_le]
  simp only [div_sqrt_mul_abs n v hv, div_sqrt_mul_abs m w hw]
  exact div_le_div_iff₀ hv hw

theorem sle_iff (a b : SVal) (ha : a.WF) (hb : b.WF) :
    SVal.sle a b = true ↔ a.denote ≤ b.denote := by
  cases a with
  | bot => simp [SVal.sle, SVal.denote]
  | top =>
    cases b with
    | bot => simp [SVal.sle, SVal.denote]
    | top => simp [SVal.sle, SVal.denote]
    | node m w =>
      simp only [SVal.sle, SVal.denote, Bool.false_eq_true, false_iff, top_le_iff]
      exact EReal.coe_ne_top _
  | node n v =>
    cases b with
    | bot =>
      simp only [SVal.sle, SVal.denote, Bool.false_eq_true, false_iff, le_bot_iff]
      exact EReal.coe_ne_bot _
    | top => simp [SVal.sle, SVal.denote]
    | node m w =>
      have hv : (0 : ℝ) < (v : ℝ) := by exact_mod_cast ha
      have hw : (0 : ℝ) < (w : ℝ) := by exact_mod_cast hb
      simp only [SVal.sle, SVal.denote, decide_eq_true_eq, EReal.coe_le_coe_iff]
      rw [div_sqrt_le_iff _ _ _ _ hv hw]
      constructor
      · intro h
        have : ((n * |n| * w : ℚ) : ℝ) ≤ ((m * |m| * v : ℚ) : ℝ) := by
          exact_mod_cast h
        simpa [abs_of_nonneg, Rat.cast_abs] using this
      · intro h
        have : ((n * |n| * w : ℚ) : ℝ) ≤ ((m * |m| * v : ℚ) : ℝ) := by
          push_cast [Rat.cast_abs]
          simpa using h
        exact_mod_cast this

theorem denote_sneg (a : SVal) : a.sneg.denote = -a.denote := by
  cases a with
  | bot => simp [SVal.sneg, SVal.denote]
  | top => simp [SVal.sneg, SVal.denote]
  | node n v =>
    simp only [SVal.sneg, SVal.denote]
    have h : ((-n : ℚ) : ℝ) / Real.sqrt (v : ℝ) = -(((n : ℚ) : ℝ) / Real.sqrt (v : ℝ)) := by
      push_cast
      ring
    rw [h, EReal.coe_neg]

theorem coe_max_EReal (a b : ℝ) : ((max a b : ℝ) : EReal) = max (a : EReal) (b : EReal) := by
  rcases le_total a b with h | h
  · rw [max_eq_right h, max_eq_right (EReal.coe_le_coe_iff.mpr h)]
  · rw [max_eq_left h, max_eq_left (EReal.coe_le_coe_iff.mpr h)]

theorem denote_sabs (a : SVal) : a.sabs.denote = eabs a.denote := by
  cases a with
  | bot => simp [SVal.sabs, SVal.denote, eabs, EReal.neg_bot]
  | top => simp [SVal.sabs, SVal.denote, eabs, EReal.neg_top]
  | node n v =>
    simp only [SVal.sabs, SVal.denote, eabs]
    rw [← EReal.coe_neg, ← coe_max_EReal]
    rw [← abs_eq_max_neg]
    rw [abs_div]
    have : |Real.sqrt (v : ℝ)| = Real.sqrt (v : ℝ) := abs_of_nonneg (Real.sqrt_nonneg _)
    rw [this]
    norm_cast

theorem WF_sabs (a : SVal) (h : a.WF) : a.sabs.WF := by
  cases a <;> trivial

theorem WF_sneg (a : SVal) (h : a.WF) : a.sneg.WF := by
  cases a <;> trivial

/-- Joint binomial probability of a sample-space point under nuisance value
`pr`, as computed (in exact arithmetic) by the source via
`np.exp(x1_sum_x2_log_comb + nuisance_power_x1_x2 +
nuisance_power_n_minus_x1_x2)`:
`C(c1,x1) * C(c2,x2) * pr^(x1+x2) * (1-pr)^(n-x1-x2)` with `n = c1 + c2`.
The log-domain float computation (with its `0 * log 0` substitutions) is
modelled separately by `tmpVal` below and proved to produce exactly this
value and never `NaN`. -/
def probMass (c1 c2 : ℕ) (pr : ℚ) (x1 x2 : ℕ) : ℚ :=
  (c1.choose x1 : ℚ) * (c2.choose x2 : ℚ) * pr ^ (x1 + x2)
    * (1 - pr) ^ (c1 + c2 - (x1 + x2))

/-- Total probability mass over the whole sample space for one nuisance
value: `tmp_values_arr.sum(axis=(0, 1))` for that candidate. -/
def totalMass (c1 c2 : ℕ) (pr : ℚ) : ℚ :=
  ∑ x1 ∈ Finset.range (c1 + 1), ∑ x2 ∈ Finset.range (c2 + 1),
    probMass c1 c2 pr x1 x2

/-- Probability mass on the rejection region for one nuisance value:
`tmp_values_arr[idx].sum(axis=0)` for that candidate. -/
def maskMass (c1 c2 : ℕ) (mask : ℕ → ℕ → Bool) (pr : ℚ) : ℚ :=
  ∑ x1 ∈ Finset.range (c1 + 1), ∑ x2 ∈ Finset.range (c2 + 1),
    if mask x1 x2 then probMass c1 c2 pr x1 x2 else 0

/-- Candidate p-value for one nuisance value: normalised
(`tmp_values_arr /= tmp_values_arr.sum(axis=(0,1))`) mass of the rejection
region. -/
def pvalAt (c1 c2 : ℕ) (mask : ℕ → ℕ → Bool) (pr : ℚ) : ℚ :=
  maskMass c1 c2 mask pr / totalMass c1 c2 pr

/-- Number of nuisance candidates per grid-search round
(`nuisance_num = 100`). -/
def nuisanceNum : ℕ := 100

/-- The evenly spaced, endpoint-inclusive candidate grid
`np.linspace(start=inf_bound, stop=sup_bound, num=nuisance_num)`. -/
def candidates (lo hi : ℚ) : List ℚ :=
  (List.range nuisanceNum).map (fun i : ℕ => lo + (i : ℚ) * (hi - lo) / 99)

/-- Helper for `argmaxList`: scans the remaining list keeping the first
index attaining the running maximum, as `np.argmax` does. -/
def argmaxAux : ℕ → ℚ → ℕ → List ℚ → ℕ
  | bi, _, _, [] => bi
  | bi, bv, i, v :: rest =>
    if bv < v then argmaxAux i v (i + 1) rest else argmaxAux bi bv (i + 1) rest

/-- Index of the first maximal element (`p_values_arr.argmax()`). -/
def argmaxList : List ℚ → ℕ
  | [] => 0
  | v :: rest => argmaxAux 0 v 1 rest

/-- Per-candidate p-values of one grid-search round (`p_values_arr`). -/
def roundPvals (c1 c2 : ℕ) (mask : ℕ → ℕ → Bool) (lo hi : ℚ) : List ℚ :=
  (candidates lo hi).map (pvalAt c1 c2 mask)

/-- Argmax index of one grid-search round (`max_pvalue_index`). -/
def roundBest (c1 c2 : ℕ) (mask : ℕ → ℕ → Bool) (lo hi : ℚ) : ℕ :=
  argmaxList (roundPvals c1 c2 mask lo hi)

/-- One round of the grid search: candidate grid, per-candidate p-values,
argmax, and the narrowed bracket; returns
`(new inf_bound, new sup_bound, p_values_arr[max_pvalue_index])`. -/
def roundStep (c1 c2 : ℕ) (mask : ℕ → ℕ → Bool) (lo hi : ℚ) : ℚ × ℚ × ℚ :=
  (if 0 < roundBest c1 c2 mask lo hi then
     (candidates lo hi).getD (roundBest c1 c2 mask lo hi - 1) 0
   else (candidates lo hi).getD 0 0,
   if roundBest c1 c2 mask lo hi < nuisanceNum - 1 then
     (candidates lo hi).getD (roundBest c1 c2 mask lo hi + 1) 0
   else (candidates lo hi).getD (nuisanceNum - 1) 0,
   (roundPvals c1 c2 mask lo hi).getD (roundBest c1 c2 mask lo hi) 0)

/-- The `for _ in range(n_iter)` loop threading the bracket; the last
argument carries the p-value selected in the most recent round (the
`p_values_arr[max_pvalue_index]` read after the loop).  The entry point
always runs at least one round because validation enforces `n_iter > 0`. -/
def nuisanceLoop (c1 c2 : ℕ) (mask : ℕ → ℕ → Bool) :
    ℕ → ℚ → ℚ → ℚ → ℚ
  | 0, _, _, lastP => lastP
  | n + 1, lo, hi, _ =>
    let r := roundStep c1 c2 mask lo hi
    nuisanceLoop c1 c2 mask n r.1 r.2.1 r.2.2

/-- The nuisance maximiser
`_binomial_maximisation_of_p_value_with_nuisance_param`: starts from the
bracket `[0, 1]`, runs `n_iter` rounds, and clamps the final maximising
p-value to at most 1. -/
def binomial_maximisation_of_p_value_with_nuisance_param
    (c1 c2 : ℕ) (mask : ℕ → ℕ → Bool) (n_iter : ℕ) : ℚ :=
  let p := nuisanceLoop c1 c2 mask n_iter 0 1 0
  if p > 1 then 1 else p

/-- Model of the `ValueError`s raised by `barnard_exact`, split by the
message raised: non-positive `n_iter`, wrong table shape, negative table
entries, unrecognized `alternative`. -/
inductive BarnardError : Type where
  | invalidNIter : BarnardError
  | invalidShape : BarnardError
  | negativeValues : BarnardError
  | invalidAlternative : BarnardError
  deriving DecidableEq, Repr

/-- Model of `BarnardExactResult`; `statistic = none` is the float `NaN`
of the degenerate branch. -/
structure BarnardResult : Type where
  statistic : Option SVal
  pvalue : ℚ
  deriving DecidableEq, Repr

/-- The rejection mask `index_arr` built from the Wald field and the
observed statistic, selected by the `alternative` string; `none` models the
`else` branch raising `ValueError` for an unrecognized alternative. -/
def rejectionMask (alternative : String) (pooled : Bool) (c1 c2 a b : ℕ) :
    Option (ℕ → ℕ → Bool) :=
  if alternative = "two-sided" then
    some (fun x1 x2 => SVal.sle (waldS pooled c1 c2 a b).sabs
      (waldS pooled c1 c2 x1 x2).sabs)
  else if alternative = "less" then
    some (fun x1 x2 => SVal.sle (waldS pooled c1 c2 x1 x2)
      (waldS pooled c1 c2 a b))
  else if alternative = "greater" then
    some (fun x1 x2 => SVal.sle (waldS pooled c1 c2 a b)
      (waldS pooled c1 c2 x1 x2))
  else none

/-- Core of `barnard_exact` after input validation, on the four (validated,
hence natural-number) table entries `[[a, b], [c, d]]`: degenerate
zero-column short-circuit, then Wald field, rejection mask (erroring on an
unrecognized alternative), and nuisance maximisation. -/
def barnardCore (a b c d : ℕ) (alternative : String) (pooled : Bool)
    (fuel : ℕ) : Except BarnardError BarnardResult :=
  if a + c = 0 ∨ b + d = 0 then .ok ⟨none, 1⟩
  else
    match rejectionMask alternative pooled (a + c) (b + d) a b with
    | none => .error .invalidAlternative
    | some mask =>
      .ok ⟨some (waldS pooled (a + c) (b + d) a b),
        binomial_maximisation_of_p_value_with_nuisance_param
          (a + c) (b + d) mask fuel⟩

/-- The entry point `barnard_exact(table, alternative, pooled, n_iter)`.
Validation order mirrors the source: `n_iter <= 0` first, then the `(2, 2)`
shape check, then non-negativity, then everything else (`barnardCore`).
After validation the entries are non-negative, so they are carried as
naturals via `Int.toNat`. -/
def barnard_exact (table : List (List ℤ)) (alternative : String)
    (pooled : Bool) (n_iter : ℤ) : Except BarnardError BarnardResult :=
  if n_iter ≤ 0 then .error .invalidNIter
  else if !(table.length == 2 && table.all (fun r => r.length == 2)) then
    .error .invalidShape
  else if table.any (fun r => r.any (fun x => decide (x < 0))) then
    .error .negativeValues
  else
    let a := ((table.getD 0 []).getD 0 0).toNat
    let b := ((table.getD 0 []).getD 1 0).toNat
    let c := ((table.getD 1 []).getD 0 0).toNat
    let d := ((table.getD 1 []).getD 1 0).toNat
    barnardCore a b c d alternative pooled n_iter.toNat

theorem propQ_nonneg (c x : ℕ) : 0 ≤ propQ c x :=
  div_nonneg (Nat.cast_nonneg x) (Nat.cast_nonneg c)

theorem propQ_le_one (c x : ℕ) (hx : x ≤ c) : propQ c x ≤ 1 := by
  unfold propQ
  exact div_le_one_of_le₀ (by exact_mod_cast hx) (Nat.cast_nonneg c)

theorem varQ_nonneg (pooled : Bool) (c1 c2 x1 x2 : ℕ)
    (h1 : x1 ≤ c1) (h2 : x2 ≤ c2) : 0 ≤ varQ pooled c1 c2 x1 x2 := by
  unfold varQ
  cases pooled with
  | true =>
    simp only [if_pos rfl]
    have hp0 : (0 : ℚ) ≤ (x1 + x2 : ℚ) / (c1 + c2 : ℚ) := by positivity
    have hp1 : (x1 + x2 : ℚ) / (c1 + c2 : ℚ) ≤ 1 := by
      apply div_le_one_of_le₀ _ (by positivity)
      have := (Nat.cast_le (α := ℚ)).mpr (Nat.add_le_add h1 h2)
      push_cast at this
      linarith
    have h3 : (0 : ℚ) ≤ 1 / (c1 : ℚ) + 1 / (c2 : ℚ) := by positivity
    have h4 : (0 : ℚ) ≤ 1 - (x1 + x2 : ℚ) / (c1 + c2 : ℚ) := by linarith
    exact mul_nonneg (mul_nonneg hp0 h4) h3
  | false =>
    rw [if_neg (by simp : ¬((false : Bool) = true))]
    have q1 := propQ_nonneg c1 x1
    have q2 := propQ_le_one c1 x1 h1
    have q3 := propQ_nonneg c2 x2
    have q4 := propQ_le_one c2 x2 h2
    have t1 : (0 : ℚ) ≤ propQ c1 x1 * (1 - propQ c1 x1) / (c1 : ℚ) := by
      apply div_nonneg _ (Nat.cast_nonneg c1)
      exact mul_nonneg q1 (by linarith)
    have t2 : (0 : ℚ) ≤ propQ c2 x2 * (1 - propQ c2 x2) / (c2 : ℚ) := by
      apply div_nonneg _ (Nat.cast_nonneg c2)
      exact mul_nonneg q3 (by linarith)
    linarith

theorem waldS_WF (pooled : Bool) (c1 c2 x1 x2 : ℕ)
    (h1 : x1 ≤ c1) (h2 : x2 ≤ c2) : (waldS pooled c1 c2 x1 x2).WF := by
  rw [waldS_eq]
  by_cases h : propQ c1 x1 = propQ c2 x2
  · simp only [if_pos h]
    exact one_pos
  · simp only [if_neg h]
    by_cases hv : varQ pooled c1 c2 x1 x2 = 0
    · simp only [if_pos hv]
      by_cases hpos : 0 < propQ c1 x1 - propQ c2 x2 <;> simp [hpos, SVal.WF]
    · simp only [if_neg hv]
      exact lt_of_le_of_ne (varQ_nonneg pooled c1 c2 x1 x2 h1 h2) (Ne.symm hv)

/-- C1: on every sample-space point of a table with both column sums
positive, the Wald statistic field holds `(p1 - p2) / sqrt(variance)` in
the IEEE sense (`idiv`: signed infinity for a nonzero numerator over a zero
denominator), and wherever `p1 = p2` it holds exactly `0` — never `NaN`
(the left-hand side is always `some`). -/
theorem claim_C1_wald_field_formula (pooled : Bool) (c1 c2 x1 x2 : ℕ)
    (_hc1 : 0 < c1) (_hc2 : 0 < c2) (hx1 : x1 ≤ c1) (hx2 : x2 ≤ c2) :
    some ((waldS pooled c1 c2 x1 x2).denote) =
      (if propQ c1 x1 = propQ c2 x2 then some (0 : EReal)
       else idiv (((propQ c1 x1 : ℚ) : ℝ) - ((propQ c2 x2 : ℚ) : ℝ))
         (Real.sqrt ((varQ pooled c1 c2 x1 x2 : ℚ) : ℝ))) := by
  rw [waldS_eq]
  by_cases h : propQ c1 x1 = propQ c2 x2
  · simp only [if_pos h, SVal.denote]
    norm_num
  · simp only [if_neg h]
    have hnum : propQ c1 x1 - propQ c2 x2 ≠ 0 := sub_ne_zero.mpr h
    have hnumR : ((propQ c1 x1 : ℚ) : ℝ) - ((propQ c2 x2 : ℚ) : ℝ) ≠ 0 := by
      intro hz
      apply hnum
      have : ((propQ c1 x1 - propQ c2 x2 : ℚ) : ℝ) = 0 := by push_cast; linarith
      exact_mod_cast this
    by_cases hv : varQ pooled c1 c2 x1 x2 = 0
    · have hsq : Real.sqrt ((varQ pooled c1 c2 x1 x2 : ℚ) : ℝ) = 0 := by
        rw [hv]
        norm_num
      rw [hsq]
      unfold idiv
      simp only [if_pos rfl, if_neg hnumR, if_pos hv]
      have hiff : (0 : ℝ) < ((propQ c1 x1 : ℚ) : ℝ) - ((propQ c2 x2 : ℚ) : ℝ) ↔
          0 < propQ c1 x1 - propQ c2 x2 := by
        constructor
        · intro hlt
          have : ((0 : ℚ) : ℝ) < ((propQ c1 x1 - propQ c2 x2 : ℚ) : ℝ) := by push_cast; linarith
          exact_mod_cast this
        · intro hlt
          have : ((0 : ℚ) : ℝ) < ((propQ c1 x1 - propQ c2 x2 : ℚ) : ℝ) := by exact_mod_cast hlt
          push_cast at this
          linarith
      by_cases hpos : 0 < propQ c1 x1 - propQ c2 x2
      · simp [hpos, hiff.mpr hpos, SVal.denote]
      · simp [hpos, (not_iff_not.mpr hiff).mpr hpos, SVal.denote]
    · have hvpos : 0 < varQ pooled c1 c2 x1 x2 :=
        lt_of_le_of_ne (varQ_nonneg pooled c1 c2 x1 x2 hx1 hx2) (Ne.symm hv)
      have hsq : Real.sqrt ((varQ pooled c1 c2 x1 x2 : ℚ) : ℝ) ≠ 0 := by
        apply ne_of_gt
        apply Real.sqrt_pos.mpr
        exact_mod_cast hvpos
      simp only [if_neg hv, idiv, if_neg hsq, SVal.denote, Option.some.injEq]
      congr 1
      push_cast
      ring_nf

/-- Closed witness for `claim_C1_wald_field_formula` at a concrete table
point. -/
theorem claim_C1_wald_field_formula_witness :
    some ((waldS true 2 3 1 2).denote) =
      (if propQ 2 1 = propQ 3 2 then some (0 : EReal)
       else idiv (((propQ 2 1 : ℚ) : ℝ) - ((propQ 3 2 : ℚ) : ℝ))
         (Real.sqrt ((varQ true 2 3 1 2 : ℚ) : ℝ))) :=
  claim_C1_wald_field_formula true 2 3 1 2 (by decide) (by decide)
    (by decide) (by decide)

/-- C4: for a non-degenerate table and each recognized alternative, the
rejection mask `index_arr` is true at `(x1, x2)` exactly when the statistic
there is at least as extreme as the observed one: `|T| ≥ |T0|` for
"two-sided", `T ≤ T0` for "less", `T ≥ T0` for "greater" (comparisons of
the denoted extended-real values).  The mask is built once, before the
nuisance search, and `binomial_maximisation_of_p_value_with_nuisance_param`
receives it as an immutable function argument, so no grid-search round can
modify it. -/
theorem claim_C4_rejection_mask (pooled : Bool) (c1 c2 a b x1 x2 : ℕ)
    (_hc1 : 0 < c1) (_hc2 : 0 < c2)
    (ha : a ≤ c1) (hb : b ≤ c2) (hx1 : x1 ≤ c1) (hx2 : x2 ≤ c2) :
    (∃ m, rejectionMask "two-sided" pooled c1 c2 a b = some m ∧
      (m x1 x2 = true ↔
        eabs ((waldS pooled c1 c2 a b).denote) ≤
          eabs ((waldS pooled c1 c2 x1 x2).denote))) ∧
    (∃ m, rejectionMask "less" pooled c1 c2 a b = some m ∧
      (m x1 x2 = true ↔
        (waldS pooled c1 c2 x1 x2).denote ≤ (waldS pooled c1 c2 a b).denote)) ∧
    (∃ m, rejectionMask "greater" pooled c1 c2 a b = some m ∧
      (m x1 x2 = true ↔
        (waldS pooled c1 c2 a b).denote ≤ (waldS pooled c1 c2 x1 x2).denote)) := by
  have wf0 : (waldS pooled c1 c2 a b).WF := waldS_WF pooled c1 c2 a b ha hb
  have wfx : (waldS pooled c1 c2 x1 x2).WF := waldS_WF pooled c1 c2 x1 x2 hx1 hx2
  refine ⟨⟨_, by rw [rejectionMask]; rfl, ?_⟩,
          ⟨_, by rw [rejectionMask]; rfl, ?_⟩,
          ⟨_, by rw [rejectionMask]; rfl, ?_⟩⟩
  · rw [sle_iff _ _ (WF_sabs _ wf0) (WF_sabs _ wfx)]
    rw [denote_sabs, denote_sabs]
  · exact sle_iff _ _ wfx wf0
  · exact sle_iff _ _ wf0 wfx

/-- Closed witness for `claim_C4_rejection_mask` at the table
`[[1, 2], [1, 1]]` and point `(2, 1)`. -/
theorem claim_C4_rejection_mask_witness :
    (∃ m, rejectionMask "two-sided" true 2 3 1 2 = some m ∧
      (m 2 1 = true ↔
        eabs ((waldS true 2 3 1 2).denote) ≤
          eabs ((waldS true 2 3 2 1).denote))) ∧
    (∃ m, rejectionMask "less" true 2 3 1 2 = some m ∧
      (m 2 1 = true ↔ (waldS true 2 3 2 1).denote ≤ (waldS true 2 3 1 2).denote)) ∧
    (∃ m, rejectionMask "greater" true 2 3 1 2 = some m ∧
      (m 2 1 = true ↔ (waldS true 2 3 1 2).denote ≤ (waldS true 2 3 2 1).denote)) :=
  claim_C4_rejection_mask true 2 3 1 2 2 1 (by decide) (by decide) (by decide)
    (by decide) (by decide) (by decide)

theorem candidates_length (lo hi : ℚ) : (candidates lo hi).length = nuisanceNum := by
  unfold candidates
  rw [List.length_map, List.length_range]

theorem candidates_getD (lo hi : ℚ) (i : ℕ) (h : i < nuisanceNum) :
    (candidates lo hi).getD i 0 = lo + (i : ℚ) * (hi - lo) / 99 := by
  unfold candidates
  have hlen : i < ((List.range nuisanceNum).map
      (fun i : ℕ => lo + (i : ℚ) * (hi - lo) / 99)).length := by
    rw [List.length_map, List.length_range]
    exact h
  rw [List.getD_eq_getElem _ 0 hlen, List.getElem_map, List.getElem_range]

theorem candidates_first (lo hi : ℚ) : (candidates lo hi).getD 0 0 = lo := by
  rw [candidates_getD lo hi 0 (by norm_num [nuisanceNum])]
  norm_num

theorem candidates_last (lo hi : ℚ) :
    (candidates lo hi).getD (nuisanceNum - 1) 0 = hi := by
  rw [candidates_getD lo hi (nuisanceNum - 1) (by norm_num [nuisanceNum])]
  norm_num [nuisanceNum]

theorem candidates_mono (lo hi : ℚ) (h : lo ≤ hi) (i j : ℕ)
    (hij : i ≤ j) (hj : j < nuisanceNum) :
    (candidates lo hi).getD i 0 ≤ (candidates lo hi).getD j 0 := by
  rw [candidates_getD lo hi i (lt_of_le_of_lt hij hj), candidates_getD lo hi j hj]
  have hc : (i : ℚ) ≤ (j : ℚ) := by exact_mod_cast hij
  have hs : (0 : ℚ) ≤ hi - lo := sub_nonneg.mpr h
  have : (i : ℚ) * (hi - lo) ≤ (j : ℚ) * (hi - lo) := mul_le_mul_of_nonneg_right hc hs
  linarith

theorem candidates_bounds (lo hi : ℚ) (h : lo ≤ hi) (i : ℕ) (hi100 : i < nuisanceNum) :
    lo ≤ (candidates lo hi).getD i 0 ∧ (candidates lo hi).getD i 0 ≤ hi := by
  constructor
  · have := candidates_mono lo hi h 0 i (Nat.zero_le i) hi100
    rwa [candidates_first] at this
  · have := candidates_mono lo hi h i (nuisanceNum - 1)
      (by omega) (by norm_num [nuisanceNum])
    rwa [candidates_last] at this

theorem argmaxAux_lt (l : List ℚ) :
    ∀ (bi : ℕ) (bv : ℚ) (i : ℕ), bi < i → argmaxAux bi bv i l < i + l.length := by
  induction l with
  | nil =>
    intro bi bv i h
    simpa [argmaxAux] using h
  | cons v rest ih =>
    intro bi bv i h
    simp only [argmaxAux]
    have hlen : i + (v :: rest).length = (i + 1) + rest.length := by
      rw [List.length_cons]
      omega
    by_cases hlt : bv < v
    · simp only [if_pos hlt]
      rw [hlen]
      exact ih i v (i + 1) (Nat.lt_succ_self i)
    · simp only [if_neg hlt]
      rw [hlen]
      exact ih bi bv (i + 1) (Nat.lt_succ_of_lt h)

theorem argmaxList_lt (l : List ℚ) (h : l ≠ []) : argmaxList l < l.length := by
  cases l with
  | nil => exact absurd rfl h
  | cons v rest =>
    have := argmaxAux_lt rest 0 v 1 Nat.one_pos
    simpa [argmaxList, Nat.add_comm] using this

theorem roundBest_lt (c1 c2 : ℕ) (mask : ℕ → ℕ → Bool) (lo hi : ℚ) :
    roundBest c1 c2 mask lo hi < nuisanceNum := by
  unfold roundBest
  have hne : roundPvals c1 c2 mask lo hi ≠ [] := by
    unfold roundPvals
    intro hc
    have := congrArg List.length hc
    rw [List.length_map, candidates_length] at this
    simp [nuisanceNum] at this
  have := argmaxList_lt _ hne
  rwa [roundPvals, List.length_map, candidates_length] at this

theorem roundStep_bracket (c1 c2 : ℕ) (mask : ℕ → ℕ → Bool) (lo hi : ℚ)
    (h : lo ≤ hi) :
    lo ≤ (roundStep c1 c2 mask lo hi).1 ∧
    (roundStep c1 c2 mask lo hi).1 ≤ (roundStep c1 c2 mask lo hi).2.1 ∧
    (roundStep c1 c2 mask lo hi).2.1 ≤ hi := by
  have hb := roundBest_lt c1 c2 mask lo hi
  unfold roundStep
  set best := roundBest c1 c2 mask lo hi with hbest
  refine ⟨?_, ?_, ?_⟩
  · by_cases h0 : 0 < best
    · simp only [if_pos h0]
      exact (candidates_bounds lo hi h (best - 1) (by omega)).1
    · simp only [if_neg h0]
      exact (candidates_bounds lo hi h 0 (by norm_num [nuisanceNum])).1
  · by_cases h0 : 0 < best <;> by_cases h99 : best < nuisanceNum - 1
    · simp only [if_pos h0, if_pos h99]
      exact candidates_mono lo hi h (best - 1) (best + 1) (by omega) (by omega)
    · simp only [if_pos h0, if_neg h99]
      have hbv : best = nuisanceNum - 1 := by omega
      exact candidates_mono lo hi h (best - 1) (nuisanceNum - 1) (by omega)
        (by norm_num [nuisanceNum])
    · simp only [if_neg h0, if_pos h99]
      exact candidates_mono lo hi h 0 (best + 1) (by omega) (by omega)
    · simp only [if_neg h0, if_neg h99]
      exact candidates_mono lo hi h 0 (nuisanceNum - 1) (by omega)
        (by norm_num [nuisanceNum])
  · by_cases h99 : best < nuisanceNum - 1
    · simp only [if_pos h99]
      exact (candidates_bounds lo hi h (best + 1) (by omega)).2
    · simp only [if_neg h99]
      exact (candidates_bounds lo hi h (nuisanceNum - 1) (by norm_num [nuisanceNum])).2

/-- C5: the nuisance bracket starts at `[0, 1]`
(`binomial_maximisation_of_p_value_with_nuisance_param` definitionally
enters the loop with bounds `0` and `1`) and narrows monotonically: each
grid-search round maps a bracket `[lo, hi] ⊆ [0, 1]` to a sub-interval
`[lo2, hi2]` of it with `lo2 ≤ hi2`, where the new bounds are the grid
candidates adjacent to the maximising one (or the kept endpoints, by
`roundStep`). -/
theorem claim_C5_bracket_narrowing (c1 c2 : ℕ) (mask : ℕ → ℕ → Bool)
    (lo hi : ℚ) (h0 : 0 ≤ lo) (hlh : lo ≤ hi) (h1 : hi ≤ 1) :
    (∀ n, binomial_maximisation_of_p_value_with_nuisance_param c1 c2 mask n =
      (if nuisanceLoop c1 c2 mask n 0 1 0 > 1 then 1
       else nuisanceLoop c1 c2 mask n 0 1 0)) ∧
    lo ≤ (roundStep c1 c2 mask lo hi).1 ∧
    (roundStep c1 c2 mask lo hi).1 ≤ (roundStep c1 c2 mask lo hi).2.1 ∧
    (roundStep c1 c2 mask lo hi).2.1 ≤ hi ∧
    0 ≤ (roundStep c1 c2 mask lo hi).1 ∧
    (roundStep c1 c2 mask lo hi).2.1 ≤ 1 := by
  obtain ⟨ha, hab, hbb⟩ := roundStep_bracket c1 c2 mask lo hi hlh
  exact ⟨fun n => rfl, ha, hab, hbb, le_trans h0 ha, le_trans hbb h1⟩

/-- Closed witness for `claim_C5_bracket_narrowing` on the bracket
`[1/4, 3/4]`. -/
theorem claim_C5_bracket_narrowing_witness :
    (∀ n, binomial_maximisation_of_p_value_with_nuisance_param 1 1
        (fun _ _ => true) n =
      (if nuisanceLoop 1 1 (fun _ _ => true) n 0 1 0 > 1 then 1
       else nuisanceLoop 1 1 (fun _ _ => true) n 0 1 0)) ∧
    (1 / 4 : ℚ) ≤ (roundStep 1 1 (fun _ _ => true) (1 / 4) (3 / 4)).1 ∧
    (roundStep 1 1 (fun _ _ => true) (1 / 4) (3 / 4)).1 ≤
      (roundStep 1 1 (fun _ _ => true) (1 / 4) (3 / 4)).2.1 ∧
    (roundStep 1 1 (fun _ _ => true) (1 / 4) (3 / 4)).2.1 ≤ (3 / 4 : ℚ) ∧
    (0 : ℚ) ≤ (roundStep 1 1 (fun _ _ => true) (1 / 4) (3 / 4)).1 ∧
    (roundStep 1 1 (fun _ _ => true) (1 / 4) (3 / 4)).2.1 ≤ 1 :=
  claim_C5_bracket_narrowing 1 1 (fun _ _ => true) (1 / 4) (3 / 4)
    (by norm_num) (by norm_num) (by norm_num)

theorem probMass_nonneg (c1 c2 : ℕ) (pr : ℚ) (h0 : 0 ≤ pr) (h1 : pr ≤ 1)
    (x1 x2 : ℕ) : 0 ≤ probMass c1 c2 pr x1 x2 := by
  unfold probMass
  have hp : (0 : ℚ) ≤ pr ^ (x1 + x2) := pow_nonneg h0 _
  have hq : (0 : ℚ) ≤ (1 - pr) ^ (c1 + c2 - (x1 + x2)) := pow_nonneg (by linarith) _
  have hc : (0 : ℚ) ≤ (c1.choose x1 : ℚ) * (c2.choose x2 : ℚ) := by positivity
  exact mul_nonneg (mul_nonneg hc hp) hq

theorem totalMass_pos (c1 c2 : ℕ) (pr : ℚ) (h0 : 0 ≤ pr) (h1 : pr ≤ 1) :
    0 < totalMass c1 c2 pr := by
  unfold totalMass
  have hterm : ∀ x1 ∈ Finset.range (c1 + 1), ∀ x2 ∈ Finset.range (c2 + 1),
      0 ≤ probMass c1 c2 pr x1 x2 :=
    fun x1 _ x2 _ => probMass_nonneg c1 c2 pr h0 h1 x1 x2
  rcases lt_or_eq_of_le h1 with hlt | heq
  · apply Finset.sum_pos'
    · intro x1 hx1
      exact Finset.sum_nonneg (hterm x1 hx1)
    · refine ⟨0, Finset.mem_range.mpr (Nat.succ_pos c1), ?_⟩
      apply Finset.sum_pos'
      · exact hterm 0 (Finset.mem_range.mpr (Nat.succ_pos c1))
      · refine ⟨0, Finset.mem_range.mpr (Nat.succ_pos c2), ?_⟩
        unfold probMass
        simp only [Nat.choose_zero_right, Nat.cast_one, one_mul, Nat.add_zero,
          pow_zero, Nat.sub_zero, mul_one]
        have : (0 : ℚ) < (1 - pr) ^ (c1 + c2) := pow_pos (by linarith) _
        simpa using this
  · apply Finset.sum_pos'
    · intro x1 hx1
      exact Finset.sum_nonneg (hterm x1 hx1)
    · refine ⟨c1, Finset.mem_range.mpr (Nat.lt_succ_self c1), ?_⟩
      apply Finset.sum_pos'
      · exact hterm c1 (Finset.mem_range.mpr (Nat.lt_succ_self c1))
      · refine ⟨c2, Finset.mem_range.mpr (Nat.lt_succ_self c2), ?_⟩
        subst heq
        unfold probMass
        simp [Nat.choose_self, Nat.sub_self]

theorem maskMass_nonneg (c1 c2 : ℕ) (mask : ℕ → ℕ → Bool) (pr : ℚ)
    (h0 : 0 ≤ pr) (h1 : pr ≤ 1) : 0 ≤ maskMass c1 c2 mask pr := by
  unfold maskMass
  apply Finset.sum_nonneg
  intro x1 _
  apply Finset.sum_nonneg
  intro x2 _
  by_cases hm : mask x1 x2 <;>
    simp [hm, probMass_nonneg c1 c2 pr h0 h1 x1 x2]

theorem maskMass_le_totalMass (c1 c2 : ℕ) (mask : ℕ → ℕ → Bool) (pr : ℚ)
    (h0 : 0 ≤ pr) (h1 : pr ≤ 1) :
    maskMass c1 c2 mask pr ≤ totalMass c1 c2 pr := by
  unfold maskMass totalMass
  apply Finset.sum_le_sum
  intro x1 _
  apply Finset.sum_le_sum
  intro x2 _
  by_cases hm : mask x1 x2 <;>
    simp [hm, probMass_nonneg c1 c2 pr h0 h1 x1 x2]

theorem pvalAt_mem (c1 c2 : ℕ) (mask : ℕ → ℕ → Bool) (pr : ℚ)
    (h0 : 0 ≤ pr) (h1 : pr ≤ 1) :
    0 ≤ pvalAt c1 c2 mask pr ∧ pvalAt c1 c2 mask pr ≤ 1 := by
  unfold pvalAt
  have ht := totalMass_pos c1 c2 pr h0 h1
  constructor
  · exact div_nonneg (maskMass_nonneg c1 c2 mask pr h0 h1) (le_of_lt ht)
  · rw [div_le_one ht]
    exact maskMass_le_totalMass c1 c2 mask pr h0 h1

theorem mem_candidates_bounds (lo hi : ℚ) (h : lo ≤ hi) (q : ℚ)
    (hq : q ∈ candidates lo hi) : lo ≤ q ∧ q ≤ hi := by
  unfold candidates at hq
  obtain ⟨i, hi_mem, rfl⟩ := List.mem_map.mp hq
  have hi100 : i < nuisanceNum := List.mem_range.mp hi_mem
  have hle : (i : ℚ) ≤ 99 := by
    have h99 : i ≤ 99 := by
      have := hi100
      simp only [nuisanceNum] at this
      omega
    exact_mod_cast h99
  have hnn : (0 : ℚ) ≤ (i : ℚ) := Nat.cast_nonneg i
  have hs : (0 : ℚ) ≤ hi - lo := sub_nonneg.mpr h
  constructor
  · nlinarith
  · nlinarith

theorem roundPvals_mem (c1 c2 : ℕ) (mask : ℕ → ℕ → Bool) (lo hi : ℚ)
    (h0 : 0 ≤ lo) (hlh : lo ≤ hi) (h1 : hi ≤ 1) (q : ℚ)
    (hq : q ∈ roundPvals c1 c2 mask lo hi) : 0 ≤ q ∧ q ≤ 1 := by
  unfold roundPvals at hq
  obtain ⟨pr, hpr, rfl⟩ := List.mem_map.mp hq
  obtain ⟨hplo, hphi⟩ := mem_candidates_bounds lo hi hlh pr hpr
  exact pvalAt_mem c1 c2 mask pr (le_trans h0 hplo) (le_trans hphi h1)

theorem roundStep_pval_mem (c1 c2 : ℕ) (mask : ℕ → ℕ → Bool) (lo hi : ℚ)
    (h0 : 0 ≤ lo) (hlh : lo ≤ hi) (h1 : hi ≤ 1) :
    0 ≤ (roundStep c1 c2 mask lo hi).2.2 ∧
    (roundStep c1 c2 mask lo hi).2.2 ≤ 1 := by
  have hb := roundBest_lt c1 c2 mask lo hi
  have hblen : roundBest c1 c2 mask lo hi < (roundPvals c1 c2 mask lo hi).length := by
    rw [roundPvals, List.length_map, candidates_length]
    exact hb
  have hm : (roundPvals c1 c2 mask lo hi).getD (roundBest c1 c2 mask lo hi) 0 ∈
      roundPvals c1 c2 mask lo hi := by
    rw [List.getD_eq_getElem _ 0 hblen]
    exact List.getElem_mem hblen
  exact roundPvals_mem c1 c2 mask lo hi h0 hlh h1 _ hm

theorem nuisanceLoop_mem (c1 c2 : ℕ) (mask : ℕ → ℕ → Bool) :
    ∀ (f : ℕ) (lo hi lastP : ℚ), 1 ≤ f → 0 ≤ lo → lo ≤ hi → hi ≤ 1 →
      0 ≤ nuisanceLoop c1 c2 mask f lo hi lastP ∧
      nuisanceLoop c1 c2 mask f lo hi lastP ≤ 1 := by
  intro f
  induction f with
  | zero => intro lo hi lastP h; omega
  | succ f ih =>
    intro lo hi lastP _ h0 hlh h1
    obtain ⟨ha, hab, hbb⟩ := roundStep_bracket c1 c2 mask lo hi hlh
    cases f with
    | zero =>
      simp only [nuisanceLoop]
      exact roundStep_pval_mem c1 c2 mask lo hi h0 hlh h1
    | succ g =>
      simp only [nuisanceLoop]
      exact ih (roundStep c1 c2 mask lo hi).1 (roundStep c1 c2 mask lo hi).2.1
        (roundStep c1 c2 mask lo hi).2.2 (Nat.le_add_left 1 g)
        (le_trans h0 ha) hab (le_trans hbb h1)

theorem maximisation_mem (c1 c2 : ℕ) (mask : ℕ → ℕ → Bool) (n : ℕ)
    (hn : 1 ≤ n) :
    0 ≤ binomial_maximisation_of_p_value_with_nuisance_param c1 c2 mask n ∧
    binomial_maximisation_of_p_value_with_nuisance_param c1 c2 mask n ≤ 1 := by
  unfold binomial_maximisation_of_p_value_with_nuisance_param
  obtain ⟨hlo, hhi⟩ := nuisanceLoop_mem c1 c2 mask n 0 1 0 hn le_rfl zero_le_one le_rfl
  by_cases hgt : nuisanceLoop c1 c2 mask n 0 1 0 > 1
  · simp [hgt]
  · simp only [if_neg hgt]
    exact ⟨hlo, hhi⟩

theorem barnard_exact_niter_le (table : List (List ℤ)) (alt : String)
    (pooled : Bool) (n_iter : ℤ) (h : n_iter ≤ 0) :
    barnard_exact table alt pooled n_iter = .error .invalidNIter := by
  unfold barnard_exact
  rw [if_pos h]

theorem barnard_exact_bad_shape (table : List (List ℤ)) (alt : String)
    (pooled : Bool) (n_iter : ℤ) (hn : 0 < n_iter)
    (h : ¬(table.length = 2 ∧ ∀ r ∈ table, r.length = 2)) :
    barnard_exact table alt pooled n_iter = .error .invalidShape := by
  unfold barnard_exact
  rw [if_neg (not_le.mpr hn)]
  have hcond : (table.length == 2 && table.all (fun r => r.length == 2)) = false := by
    cases hc : (table.length == 2 && table.all (fun r => r.length == 2)) with
    | false => rfl
    | true =>
      exfalso
      rw [Bool.and_eq_true, beq_iff_eq, List.all_eq_true] at hc
      exact h ⟨hc.1, fun r hr => by
        have := hc.2 r hr
        rwa [beq_iff_eq] at this⟩
  rw [hcond]
  rfl

theorem barnard_exact_negative_entry (table : List (List ℤ)) (alt : String)
    (pooled : Bool) (n_iter : ℤ) (hn : 0 < n_iter)
    (hshape : table.length = 2 ∧ ∀ r ∈ table, r.length = 2)
    (hneg : ∃ r ∈ table, ∃ x ∈ r, x < 0) :
    barnard_exact table alt pooled n_iter = .error .negativeValues := by
  unfold barnard_exact
  rw [if_neg (not_le.mpr hn)]
  have hcond : (table.length == 2 && table.all (fun r => r.length == 2)) = true := by
    rw [Bool.and_eq_true, beq_iff_eq, List.all_eq_true]
    exact ⟨hshape.1, fun r hr => by rw [beq_iff_eq]; exact hshape.2 r hr⟩
  rw [hcond]
  have hany : (table.any (fun r => r.any (fun x => decide (x < 0)))) = true := by
    rw [List.any_eq_true]
    obtain ⟨r, hr, x, hx, hlt⟩ := hneg
    exact ⟨r, hr, by
      rw [List.any_eq_true]
      exact ⟨x, hx, decide_eq_true hlt⟩⟩
  rw [hany]
  rfl

theorem barnard_exact_eq_core (a b c d : ℤ) (ha : 0 ≤ a) (hb : 0 ≤ b)
    (hc : 0 ≤ c) (hd : 0 ≤ d) (alt : String) (pooled : Bool) (n_iter : ℤ)
    (hn : 0 < n_iter) :
    barnard_exact [[a, b], [c, d]] alt pooled n_iter =
      barnardCore a.toNat b.toNat c.toNat d.toNat alt pooled n_iter.toNat := by
  unfold barnard_exact
  rw [if_neg (not_le.mpr hn)]
  have hsh : (([[a, b], [c, d]] : List (List ℤ)).length == 2 &&
      ([[a, b], [c, d]] : List (List ℤ)).all (fun r => r.length == 2)) = true := rfl
  rw [hsh]
  have hneg : (([[a, b], [c, d]] : List (List ℤ)).any
      (fun r => r.any (fun x => decide (x < 0)))) = false := by
    simp only [List.any_cons, List.any_nil, Bool.or_false, Bool.or_eq_false_iff,
      decide_eq_false_iff_not, not_lt]
    omega
  rw [hneg]
  rfl

/-- C3: a non-negative 2x2 table with a zero-sum column returns
`(statistic = NaN, pvalue = 1)` immediately for every `alternative` string
(recognized or not), every `pooled`, and every `n_iter > 0`: the degenerate
short-circuit in `barnardCore` fires before the statistic field, rejection
mask, or nuisance maximisation are ever consulted. -/
theorem claim_C3_degenerate_short_circuit (a b c d : ℤ) (ha : 0 ≤ a)
    (hb : 0 ≤ b) (hc : 0 ≤ c) (hd : 0 ≤ d)
    (hdeg : a + c = 0 ∨ b + d = 0) (alt : String) (pooled : Bool)
    (n_iter : ℤ) (hn : 0 < n_iter) :
    barnard_exact [[a, b], [c, d]] alt pooled n_iter =
      .ok ⟨none, 1⟩ := by
  rw [barnard_exact_eq_core a b c d ha hb hc hd alt pooled n_iter hn]
  unfold barnardCore
  rw [if_pos (by omega : a.toNat + c.toNat = 0 ∨ b.toNat + d.toNat = 0)]

/-- Closed witness for `claim_C3_degenerate_short_circuit` on the table
`[[0, 1], [0, 1]]` with an unrecognized alternative. -/
theorem claim_C3_degenerate_short_circuit_witness :
    barnard_exact [[0, 1], [0, 1]] "bogus" true 3 = .ok ⟨none, 1⟩ :=
  claim_C3_degenerate_short_circuit 0 1 0 1 (by decide) (by decide) (by decide)
    (by decide) (by decide) "bogus" true 3 (by decide)

/-- C6 counterexample: the claim says an unrecognized `alternative` raises
InvalidArgument for every table, including tables with a zero-sum column;
but on `[[0, 1], [0, 1]]` (first column sums to 0) with
`alternative = "bogus"` the code returns the degenerate result
`(NaN, 1.0)` instead of failing. -/
theorem claim_C6_counterexample :
    ("bogus" ≠ "two-sided" ∧ "bogus" ≠ "less" ∧ "bogus" ≠ "greater") ∧
    barnard_exact [[0, 1], [0, 1]] "bogus" true 3 = .ok ⟨none, 1⟩ ∧
    ∀ e, barnard_exact [[0, 1], [0, 1]] "bogus" true 3 ≠ .error e := by
  refine ⟨by decide, by rfl, ?_⟩
  intro e h
  rw [show barnard_exact [[0, 1], [0, 1]] "bogus" true 3 = .ok ⟨none, 1⟩ from rfl] at h
  exact Except.noConfusion h

/-- C6 amended: for a valid table whose two column sums are both positive
(so the degenerate short-circuit does not fire), an unrecognized
`alternative` makes `barnard_exact` fail with the InvalidArgument error;
for degenerate tables the `(NaN, 1.0)` short-circuit precedes the
alternative check. -/
theorem claim_C6_amended_unrecognized_alternative (a b c d : ℤ)
    (ha : 0 ≤ a) (hb : 0 ≤ b) (hc : 0 ≤ c) (hd : 0 ≤ d)
    (h1 : a + c ≠ 0) (h2 : b + d ≠ 0) (alt : String) (pooled : Bool)
    (n_iter : ℤ) (hn : 0 < n_iter)
    (halt : alt ≠ "two-sided" ∧ alt ≠ "less" ∧ alt ≠ "greater") :
    barnard_exact [[a, b], [c, d]] alt pooled n_iter =
      .error .invalidAlternative := by
  rw [barnard_exact_eq_core a b c d ha hb hc hd alt pooled n_iter hn]
  unfold barnardCore
  rw [if_neg (by omega : ¬(a.toNat + c.toNat = 0 ∨ b.toNat + d.toNat = 0))]
  unfold rejectionMask
  rw [if_neg halt.1, if_neg halt.2.1, if_neg halt.2.2]

/-- Closed witness for `claim_C6_amended_unrecognized_alternative`. -/
theorem claim_C6_amended_unrecognized_alternative_witness :
    barnard_exact [[1, 2], [1, 1]] "bogus" true 3 =
      .error .invalidAlternative :=
  claim_C6_amended_unrecognized_alternative 1 2 1 1 (by decide) (by decide)
    (by decide) (by decide) (by decide) (by decide) "bogus" true 3 (by decide)
    (by decide)

/-- C7: non-positive `n_iter`, a table whose shape is not `(2, 2)`, and a
table containing a negative entry each make `barnard_exact` fail with the
corresponding InvalidArgument error before any statistic-field, mask, or
maximisation computation, returning no result. -/
theorem claim_C7_validation_errors (table : List (List ℤ)) (alt : String)
    (pooled : Bool) (n_iter : ℤ) :
    (n_iter ≤ 0 →
      barnard_exact table alt pooled n_iter = .error .invalidNIter) ∧
    (0 < n_iter → ¬(table.length = 2 ∧ ∀ r ∈ table, r.length = 2) →
      barnard_exact table alt pooled n_iter = .error .invalidShape) ∧
    (0 < n_iter → (table.length = 2 ∧ ∀ r ∈ table, r.length = 2) →
      (∃ r ∈ table, ∃ x ∈ r, x < 0) →
      barnard_exact table alt pooled n_iter = .error .negativeValues) :=
  ⟨fun h => barnard_exact_niter_le table alt pooled n_iter h,
   fun hn h => barnard_exact_bad_shape table alt pooled n_iter hn h,
   fun hn hs hneg => barnard_exact_negative_entry table alt pooled n_iter hn hs hneg⟩

/-- Closed witness for `claim_C7_validation_errors`: a wrong-shape table
with `n_iter = 3`. -/
theorem claim_C7_validation_errors_witness :
    barnard_exact [[1, 2, 3], [4, 5, 6]] "less" true 3 =
      .error .invalidShape :=
  (claim_C7_validation_errors [[1, 2, 3], [4, 5, 6]] "less" true 3).2.1
    (by decide) (by decide)

/-- C10: validation is ordered.  `n_iter <= 0` is reported first for every
table (well-formed or not); a bad shape is reported next (even when the
table also contains negative entries); and for a non-negative table with a
zero-sum column the degenerate `(NaN, 1.0)` result is returned for every
`alternative` string, recognized or not — so the degenerate short-circuit
precedes the alternative check, while `n_iter <= 0` still fails on such
tables. -/
theorem claim_C10_validation_order (a b c d : ℤ) (ha : 0 ≤ a) (hb : 0 ≤ b)
    (hc : 0 ≤ c) (hd : 0 ≤ d) (hdeg : a + c = 0 ∨ b + d = 0) (alt : String)
    (pooled : Bool) (n_iter : ℤ) :
    (0 < n_iter →
      barnard_exact [[a, b], [c, d]] alt pooled n_iter = .ok ⟨none, 1⟩) ∧
    (n_iter ≤ 0 →
      barnard_exact [[a, b], [c, d]] alt pooled n_iter =
        .error .invalidNIter) ∧
    (∀ t : List (List ℤ), n_iter ≤ 0 →
      barnard_exact t alt pooled n_iter = .error .invalidNIter) ∧
    (∀ t : List (List ℤ), 0 < n_iter →
      ¬(t.length = 2 ∧ ∀ r ∈ t, r.length = 2) →
      barnard_exact t alt pooled n_iter = .error .invalidShape) := by
  refine ⟨?_, ?_, ?_, ?_⟩
  · intro hn
    rw [barnard_exact_eq_core a b c d ha hb hc hd alt pooled n_iter hn]
    unfold barnardCore
    rw [if_pos (by omega : a.toNat + c.toNat = 0 ∨ b.toNat + d.toNat = 0)]
  · intro hn
    exact barnard_exact_niter_le _ alt pooled n_iter hn
  · intro t hn
    exact barnard_exact_niter_le t alt pooled n_iter hn
  · intro t hn hs
    exact barnard_exact_bad_shape t alt pooled n_iter hn hs

/-- Closed witness for `claim_C10_validation_order` on `[[0, 2], [0, 3]]`
with an unrecognized alternative. -/
theorem claim_C10_validation_order_witness :
    barnard_exact [[0, 2], [0, 3]] "nonsense" false 2 = .ok ⟨none, 1⟩ ∧
    barnard_exact [[0, 2], [0, 3]] "nonsense" false (-1) =
      .error .invalidNIter :=
  ⟨(claim_C10_validation_order 0 2 0 3 (by decide) (by decide) (by decide)
      (by decide) (by decide) "nonsense" false 2).1 (by decide),
   (claim_C10_validation_order 0 2 0 3 (by decide) (by decide) (by decide)
      (by decide) (by decide) "nonsense" false (-1)).2.1 (by decide)⟩

theorem rejectionMask_recognized (alt : String)
    (halt : alt = "two-sided" ∨ alt = "less" ∨ alt = "greater")
    (pooled : Bool) (c1 c2 a b : ℕ) :
    ∃ m, rejectionMask alt pooled c1 c2 a b = some m := by
  rcases halt with h | h | h <;> subst h <;>
    exact ⟨_, by unfold rejectionMask; rfl⟩

/-- C2: for every valid input (non-negative 2x2 table, recognized
alternative, `n_iter > 0`), `barnard_exact` returns a result whose p-value
lies in `[0, 1]`; and the nuisance maximiser returns exactly the final
round's maximising candidate p-value clamped to at most 1 (`min 1 _`). -/
theorem claim_C2_pvalue_in_unit_interval (a b c d : ℤ) (ha : 0 ≤ a)
    (hb : 0 ≤ b) (hc : 0 ≤ c) (hd : 0 ≤ d) (alt : String)
    (halt : alt = "two-sided" ∨ alt = "less" ∨ alt = "greater")
    (pooled : Bool) (n_iter : ℤ) (hn : 0 < n_iter) :
    (∃ r, barnard_exact [[a, b], [c, d]] alt pooled n_iter = .ok r ∧
      0 ≤ r.pvalue ∧ r.pvalue ≤ 1) ∧
    (∀ c1 c2 : ℕ, ∀ mask : ℕ → ℕ → Bool, ∀ n : ℕ,
      binomial_maximisation_of_p_value_with_nuisance_param c1 c2 mask n =
        min 1 (nuisanceLoop c1 c2 mask n 0 1 0)) := by
  constructor
  · rw [barnard_exact_eq_core a b c d ha hb hc hd alt pooled n_iter hn]
    unfold barnardCore
    by_cases hdeg : a.toNat + c.toNat = 0 ∨ b.toNat + d.toNat = 0
    · rw [if_pos hdeg]
      exact ⟨⟨none, 1⟩, rfl, zero_le_one, le_refl 1⟩
    · rw [if_neg hdeg]
      obtain ⟨m, hm⟩ := rejectionMask_recognized alt halt pooled
        (a.toNat + c.toNat) (b.toNat + d.toNat) a.toNat b.toNat
      rw [hm]
      refine ⟨_, rfl, ?_⟩
      exact maximisation_mem (a.toNat + c.toNat) (b.toNat + d.toNat) m
        n_iter.toNat (by omega)
  · intro c1 c2 mask n
    unfold binomial_maximisation_of_p_value_with_nuisance_param
    by_cases hp : nuisanceLoop c1 c2 mask n 0 1 0 > 1
    · rw [if_pos hp, min_eq_left (le_of_lt hp)]
    · rw [if_neg hp, min_eq_right (not_lt.mp hp)]

/-- Closed witness for `claim_C2_pvalue_in_unit_interval` on the table
`[[1, 2], [1, 1]]`. -/
theorem claim_C2_pvalue_in_unit_interval_witness :
    (∃ r, barnard_exact [[1, 2], [1, 1]] "less" true 3 = .ok r ∧
      0 ≤ r.pvalue ∧ r.pvalue ≤ 1) ∧
    (∀ c1 c2 : ℕ, ∀ mask : ℕ → ℕ → Bool, ∀ n : ℕ,
      binomial_maximisation_of_p_value_with_nuisance_param c1 c2 mask n =
        min 1 (nuisanceLoop c1 c2 mask n 0 1 0)) :=
  claim_C2_pvalue_in_unit_interval 1 2 1 1 (by decide) (by decide) (by decide)
    (by decide) "less" (Or.inr (Or.inl rfl)) true 3 (by decide)

/-- Extended log-domain value for the float computation inside the grid
search.  `nan` is IEEE `NaN`, `ninf` is `-inf` (= `log 0`), and a finite
log value is encoded by its exponential: `fin e` stands for `log e`
(`e > 0`).  This encoding is exact for every quantity the loop handles:
`log a + log b` becomes `fin (a * b)` and `k * log a` becomes
`fin (a ^ k)`. -/
inductive LogVal : Type where
  | nan : LogVal
  | ninf : LogVal
  | fin : ℚ → LogVal
  deriving DecidableEq, Repr

/-- Plain `np.log` under `errstate(divide="ignore")`: `log 0 = -inf`, and a
negative argument yields `NaN`. -/
def logQ (q : ℚ) : LogVal :=
  if 0 < q then .fin q else if q = 0 then .ninf else .nan

/-- Masked log of the source,
`np.log(x, out=np.zeros_like(x), where=x >= 0)`: where the argument is
negative the prefilled `0` (the log value of 1, i.e. `fin 1`) is kept. -/
def logWhere (q : ℚ) : LogVal := if 0 ≤ q then logQ q else .fin 1

/-- Multiplication of a log-domain value by a natural scalar, as in
`log_nuisance_arr * (x1 + x2)`.  IEEE: `-inf * 0 = NaN`. -/
def LogVal.smulNat (k : ℕ) : LogVal → LogVal
  | .nan => .nan
  | .ninf => if k = 0 then .nan else .ninf
  | .fin e => .fin (e ^ k)

/-- Addition of log-domain values: `NaN` absorbs, then `-inf` absorbs;
finite values multiply their exponential encodings. -/
def LogVal.add : LogVal → LogVal → LogVal
  | .nan, _ => .nan
  | _, .nan => .nan
  | .ninf, _ => .ninf
  | _, .ninf => .ninf
  | .fin e, .fin f => .fin (e * f)

/-- Final `np.exp`, with `none` for `NaN` and `exp (-inf) = 0`. -/
def LogVal.exp : LogVal → Option ℚ
  | .nan => none
  | .ninf => some 0
  | .fin e => some e

/-- One entry of `x1_log_comb` / `x2_log_comb` from
`_compute_log_combinations`: the log binomial coefficient
`gammaln(n+1) - gammaln(k+1) - gammaln(n-k+1) = log C(n, k)`, encoded by
its exponential `C(n, k)`. -/
def logComb (n k : ℕ) : LogVal := .fin ((n.choose k : ℚ))

/-- `nuisance_power_x1_x2` after the boundary substitution
`nuisance_power_x1_x2[(x1 + x2 == 0)] = 0` (the log value 0 is `fin 1`). -/
def nuisancePowSub (pr : ℚ) (x1 x2 : ℕ) : LogVal :=
  if x1 + x2 = 0 then .fin 1 else (logWhere pr).smulNat (x1 + x2)

/-- `nuisance_power_n_minus_x1_x2` after the boundary substitution
`nuisance_power_n_minus_x1_x2[(x1 + x2 == n)] = 0`. -/
def nuisancePowCompSub (c1 c2 : ℕ) (pr : ℚ) (x1 x2 : ℕ) : LogVal :=
  if x1 + x2 = c1 + c2 then .fin 1
  else (logWhere (1 - pr)).smulNat (c1 + c2 - (x1 + x2))

/-- One entry of `tmp_values_arr`:
`np.exp(x1_sum_x2_log_comb + nuisance_power_x1_x2 +
nuisance_power_n_minus_x1_x2)`, with `none` as `NaN`. -/
def tmpVal (c1 c2 : ℕ) (pr : ℚ) (x1 x2 : ℕ) : Option ℚ :=
  (((logComb c1 x1).add (logComb c2 x2)).add
    ((nuisancePowSub pr x1 x2).add (nuisancePowCompSub c1 c2 pr x1 x2))).exp

theorem nuisancePowSub_pos (pr : ℚ) (hp : 0 < pr) (x1 x2 : ℕ) :
    nuisancePowSub pr x1 x2 = .fin (pr ^ (x1 + x2)) := by
  unfold nuisancePowSub logWhere logQ
  by_cases hs : x1 + x2 = 0
  · rw [if_pos hs, hs, pow_zero]
  · rw [if_neg hs, if_pos (le_of_lt hp), if_pos hp]
    rfl

theorem nuisancePowSub_zero_of_ne (x1 x2 : ℕ) (hs : x1 + x2 ≠ 0) :
    nuisancePowSub 0 x1 x2 = .ninf := by
  unfold nuisancePowSub logWhere logQ
  rw [if_neg hs, if_pos le_rfl, if_neg (lt_irrefl 0), if_pos rfl]
  simp [LogVal.smulNat, hs]

theorem nuisancePowCompSub_lt (c1 c2 : ℕ) (pr : ℚ) (hp : pr < 1)
    (x1 x2 : ℕ) :
    nuisancePowCompSub c1 c2 pr x1 x2 =
      .fin ((1 - pr) ^ (c1 + c2 - (x1 + x2))) := by
  unfold nuisancePowCompSub logWhere logQ
  have h1 : (0 : ℚ) < 1 - pr := by linarith
  by_cases hs : x1 + x2 = c1 + c2
  · rw [if_pos hs, hs, Nat.sub_self, pow_zero]
  · rw [if_neg hs, if_pos (le_of_lt h1), if_pos h1]
    rfl

theorem nuisancePowCompSub_one_of_ne (c1 c2 x1 x2 : ℕ)
    (hs : x1 + x2 ≠ c1 + c2) (hle : x1 + x2 ≤ c1 + c2) :
    nuisancePowCompSub c1 c2 1 x1 x2 = .ninf := by
  unfold nuisancePowCompSub logWhere logQ
  rw [if_neg hs]
  norm_num
  simp [LogVal.smulNat]
  omega

theorem tmpVal_eq_probMass (c1 c2 x1 x2 : ℕ) (pr : ℚ) (h0 : 0 ≤ pr)
    (h1 : pr ≤ 1) (hx1 : x1 ≤ c1) (hx2 : x2 ≤ c2) :
    tmpVal c1 c2 pr x1 x2 = some (probMass c1 c2 pr x1 x2) := by
  have hle : x1 + x2 ≤ c1 + c2 := Nat.add_le_add hx1 hx2
  unfold tmpVal probMass logComb
  rcases lt_or_eq_of_le h0 with hp0 | hp0
  · rcases lt_or_eq_of_le h1 with hp1 | hp1
    · rw [nuisancePowSub_pos pr hp0, nuisancePowCompSub_lt c1 c2 pr hp1]
      simp only [LogVal.add, LogVal.exp, Option.some.injEq]
      ring
    · subst hp1
      rw [nuisancePowSub_pos 1 hp0]
      by_cases hs : x1 + x2 = c1 + c2
      · unfold nuisancePowCompSub
        rw [if_pos hs, hs, Nat.sub_self, pow_zero]
        simp only [LogVal.add, LogVal.exp, Option.some.injEq]
        norm_num
      · rw [nuisancePowCompSub_one_of_ne c1 c2 x1 x2 hs hle]
        simp only [LogVal.add, LogVal.exp, Option.some.injEq]
        have : (1 - (1 : ℚ)) ^ (c1 + c2 - (x1 + x2)) = 0 := by
          rw [sub_self]
          exact zero_pow (by omega)
        rw [this]
        ring
  · subst hp0
    by_cases hs : x1 + x2 = 0
    · unfold nuisancePowSub
      rw [if_pos hs]
      rw [nuisancePowCompSub_lt c1 c2 0 (by norm_num)]
      simp only [LogVal.add, LogVal.exp, Option.some.injEq, hs, pow_zero]
      ring
    · rw [nuisancePowSub_zero_of_ne x1 x2 hs,
        nuisancePowCompSub_lt c1 c2 0 (by norm_num)]
      simp only [LogVal.add, LogVal.exp, Option.some.injEq]
      have : (0 : ℚ) ^ (x1 + x2) = 0 := zero_pow hs
      rw [this]
      ring

/-- C8: in every grid-search round, for any candidate nuisance value in
`[0, 1]` and any sample-space point, the boundary log-probability terms at
`x1 + x2 = 0` and `x1 + x2 = n` are substituted by exactly 0 (`fin 1`
encodes the log value 0) before anything is summed, and as a result the
exponentiated probability entry is never `NaN`: it equals the exact
binomial mass `probMass` (a `some`), so no `NaN` can enter any
per-candidate total mass or candidate p-value, which are sums and
quotients of these entries.  Likewise the `p1 == p2` substitution leaves
the Wald field free of `NaN` at every point, so none enters the rejection
mask. -/
theorem claim_C8_boundary_substitutions (c1 c2 x1 x2 : ℕ) (pr : ℚ)
    (h0 : 0 ≤ pr) (h1 : pr ≤ 1) (hx1 : x1 ≤ c1) (hx2 : x2 ≤ c2) :
    (x1 + x2 = 0 → nuisancePowSub pr x1 x2 = .fin 1) ∧
    (x1 + x2 = c1 + c2 → nuisancePowCompSub c1 c2 pr x1 x2 = .fin 1) ∧
    tmpVal c1 c2 pr x1 x2 = some (probMass c1 c2 pr x1 x2) ∧
    (∀ (pooled : Bool) (y1 y2 : ℕ), waldField pooled c1 c2 y1 y2 ≠ none) := by
  refine ⟨fun hs => ?_, fun hs => ?_, ?_, fun pooled y1 y2 => ?_⟩
  · unfold nuisancePowSub
    rw [if_pos hs]
  · unfold nuisancePowCompSub
    rw [if_pos hs]
  · exact tmpVal_eq_probMass c1 c2 x1 x2 pr h0 h1 hx1 hx2
  · exact waldField_ne_none pooled c1 c2 y1 y2

/-- Closed witness for `claim_C8_boundary_substitutions` at the candidate
`1/2` and point `(1, 2)` of a `5 + 5`-column table. -/
theorem claim_C8_boundary_substitutions_witness :
    (1 + 2 = 0 → nuisancePowSub (1 / 2) 1 2 = .fin 1) ∧
    (1 + 2 = 2 + 3 → nuisancePowCompSub 2 3 (1 / 2) 1 2 = .fin 1) ∧
    tmpVal 2 3 (1 / 2) 1 2 = some (probMass 2 3 (1 / 2) 1 2) ∧
    (∀ (pooled : Bool) (y1 y2 : ℕ), waldField pooled 2 3 y1 y2 ≠ none) :=
  claim_C8_boundary_substitutions 2 3 1 2 (1 / 2) (by norm_num) (by norm_num)
    (by decide) (by decide)

theorem varQ_swap (pooled : Bool) (c1 c2 x1 x2 : ℕ) :
    varQ pooled c2 c1 x2 x1 = varQ pooled c1 c2 x1 x2 := by
  unfold varQ propQ
  cases pooled with
  | true =>
    rw [if_pos rfl, if_pos rfl]
    ring
  | false =>
    rw [if_neg (by simp : ¬((false : Bool) = true)),
      if_neg (by simp : ¬((false : Bool) = true))]
    ring

theorem waldS_swap (pooled : Bool) (c1 c2 x1 x2 : ℕ) :
    waldS pooled c2 c1 x2 x1 = (waldS pooled c1 c2 x1 x2).sneg := by
  rw [waldS_eq, waldS_eq, varQ_swap]
  by_cases h : propQ c1 x1 = propQ c2 x2
  · rw [if_pos h, if_pos h.symm]
    show SVal.node 0 1 = SVal.node (-0) 1
    rw [neg_zero]
  · rw [if_neg h, if_neg (fun hc => h hc.symm)]
    by_cases hv : varQ pooled c1 c2 x1 x2 = 0
    · rw [if_pos hv, if_pos hv]
      rcases lt_trichotomy (propQ c1 x1 - propQ c2 x2) 0 with hlt | heq | hgt
      · rw [if_pos (by linarith), if_neg (by linarith)]
        rfl
      · exact absurd (by linarith : propQ c1 x1 = propQ c2 x2) h
      · rw [if_neg (by linarith), if_pos (by linarith)]
        rfl
    · rw [if_neg hv, if_neg hv]
      show SVal.node (propQ c2 x2 - propQ c1 x1) _ =
        SVal.node (-(propQ c1 x1 - propQ c2 x2)) _
      rw [neg_sub]

theorem sle_sneg (a b : SVal) : SVal.sle a.sneg b.sneg = SVal.sle b a := by
  cases a with
  | bot => cases b <;> rfl
  | top => cases b <;> rfl
  | node n v =>
    cases b with
    | bot => rfl
    | top => rfl
    | node m w =>
      simp only [SVal.sneg, SVal.sle, abs_neg, neg_mul]
      rw [decide_eq_decide]
      constructor <;> intro h <;> linarith

theorem sabs_sneg (a : SVal) : a.sneg.sabs = a.sabs := by
  cases a with
  | bot => rfl
  | top => rfl
  | node n v =>
    show SVal.node |(-n)| v = SVal.node |n| v
    rw [abs_neg]

theorem probMass_swap (c1 c2 : ℕ) (pr : ℚ) (x1 x2 : ℕ) :
    probMass c2 c1 pr x2 x1 = probMass c1 c2 pr x1 x2 := by
  unfold probMass
  rw [Nat.add_comm x2 x1, Nat.add_comm c2 c1]
  ring

theorem totalMass_swap (c1 c2 : ℕ) (pr : ℚ) :
    totalMass c2 c1 pr = totalMass c1 c2 pr := by
  unfold totalMass
  rw [Finset.sum_comm]
  exact Finset.sum_congr rfl fun x1 _ =>
    Finset.sum_congr rfl fun x2 _ => probMass_swap c1 c2 pr x1 x2

theorem maskMass_swap (c1 c2 : ℕ) (mask : ℕ → ℕ → Bool) (pr : ℚ) :
    maskMass c2 c1 (fun y1 y2 => mask y2 y1) pr = maskMass c1 c2 mask pr := by
  unfold maskMass
  rw [Finset.sum_comm]
  refine Finset.sum_congr rfl fun x1 _ => Finset.sum_congr rfl fun x2 _ => ?_
  rw [probMass_swap c1 c2 pr x1 x2]

theorem pvalAt_swap (c1 c2 : ℕ) (mask : ℕ → ℕ → Bool) :
    pvalAt c2 c1 (fun y1 y2 => mask y2 y1) = pvalAt c1 c2 mask := by
  funext pr
  unfold pvalAt
  rw [maskMass_swap, totalMass_swap]

theorem roundStep_swap (c1 c2 : ℕ) (mask : ℕ → ℕ → Bool) (lo hi : ℚ) :
    roundStep c2 c1 (fun y1 y2 => mask y2 y1) lo hi =
      roundStep c1 c2 mask lo hi := by
  unfold roundStep roundBest roundPvals
  rw [pvalAt_swap]

theorem nuisanceLoop_swap (c1 c2 : ℕ) (mask : ℕ → ℕ → Bool) :
    ∀ (f : ℕ) (lo hi lastP : ℚ),
      nuisanceLoop c2 c1 (fun y1 y2 => mask y2 y1) f lo hi lastP =
        nuisanceLoop c1 c2 mask f lo hi lastP := by
  intro f
  induction f with
  | zero => intro lo hi lastP; rfl
  | succ g ih =>
    intro lo hi lastP
    simp only [nuisanceLoop]
    rw [roundStep_swap]
    exact ih _ _ _

theorem maximisation_swap (c1 c2 : ℕ) (mask : ℕ → ℕ → Bool) (n : ℕ) :
    binomial_maximisation_of_p_value_with_nuisance_param c2 c1
      (fun y1 y2 => mask y2 y1) n =
    binomial_maximisation_of_p_value_with_nuisance_param c1 c2 mask n := by
  unfold binomial_maximisation_of_p_value_with_nuisance_param
  rw [nuisanceLoop_swap]

/-- Swap of the one-sided alternatives ("less" with "greater",
"two-sided" kept fixed), matching the column-swap symmetry. -/
def swapAlt (s : String) : String :=
  if s = "less" then "greater" else if s = "greater" then "less" else s

theorem maximisation_swap2 (c1 c2 : ℕ) (m1 m2 : ℕ → ℕ → Bool)
    (hm : ∀ x y, m1 x y = m2 y x) (n : ℕ) :
    binomial_maximisation_of_p_value_with_nuisance_param c2 c1 m1 n =
    binomial_maximisation_of_p_value_with_nuisance_param c1 c2 m2 n := by
  have h : m1 = fun y1 y2 => m2 y2 y1 := funext fun x => funext fun y => hm x y
  rw [h, maximisation_swap]

theorem barnardCore_swap (A B C D : ℕ) (alt : String)
    (halt : alt = "two-sided" ∨ alt = "less" ∨ alt = "greater")
    (pooled : Bool) (fuel : ℕ) (h1 : A + C ≠ 0) (h2 : B + D ≠ 0) :
    ∃ s p, barnardCore A B C D alt pooled fuel = .ok ⟨some s, p⟩ ∧
      barnardCore B A D C (swapAlt alt) pooled fuel = .ok ⟨some s.sneg, p⟩ := by
  have hdeg1 : ¬(A + C = 0 ∨ B + D = 0) := not_or.mpr ⟨h1, h2⟩
  have hdeg2 : ¬(B + D = 0 ∨ A + C = 0) := not_or.mpr ⟨h2, h1⟩
  have hstat := waldS_swap pooled (A + C) (B + D) A B
  rcases halt with h | h | h <;> subst h
  · have e1 : barnardCore A B C D "two-sided" pooled fuel =
        .ok ⟨some (waldS pooled (A + C) (B + D) A B),
          binomial_maximisation_of_p_value_with_nuisance_param (A + C) (B + D)
            (fun x1 x2 => SVal.sle (waldS pooled (A + C) (B + D) A B).sabs
              (waldS pooled (A + C) (B + D) x1 x2).sabs) fuel⟩ := by
      unfold barnardCore
      rw [if_neg hdeg1]
      rfl
    have e2 : barnardCore B A D C (swapAlt "two-sided") pooled fuel =
        .ok ⟨some (waldS pooled (B + D) (A + C) B A),
          binomial_maximisation_of_p_value_with_nuisance_param (B + D) (A + C)
            (fun x1 x2 => SVal.sle (waldS pooled (B + D) (A + C) B A).sabs
              (waldS pooled (B + D) (A + C) x1 x2).sabs) fuel⟩ := by
      unfold barnardCore
      rw [if_neg hdeg2]
      rfl
    refine ⟨_, _, e1, ?_⟩
    rw [e2]
    have hpv := maximisation_swap2 (A + C) (B + D)
      (fun x1 x2 => SVal.sle (waldS pooled (B + D) (A + C) B A).sabs
        (waldS pooled (B + D) (A + C) x1 x2).sabs)
      (fun x1 x2 => SVal.sle (waldS pooled (A + C) (B + D) A B).sabs
        (waldS pooled (A + C) (B + D) x1 x2).sabs)
      (fun x y => by
        simp only [hstat, waldS_swap pooled (A + C) (B + D) y x, sabs_sneg])
      fuel
    rw [hpv, hstat]
  · have e1 : barnardCore A B C D "less" pooled fuel =
        .ok ⟨some (waldS pooled (A + C) (B + D) A B),
          binomial_maximisation_of_p_value_with_nuisance_param (A + C) (B + D)
            (fun x1 x2 => SVal.sle (waldS pooled (A + C) (B + D) x1 x2)
              (waldS pooled (A + C) (B + D) A B)) fuel⟩ := by
      unfold barnardCore
      rw [if_neg hdeg1]
      rfl
    have e2 : barnardCore B A D C (swapAlt "less") pooled fuel =
        .ok ⟨some (waldS pooled (B + D) (A + C) B A),
          binomial_maximisation_of_p_value_with_nuisance_param (B + D) (A + C)
            (fun x1 x2 => SVal.sle (waldS pooled (B + D) (A + C) B A)
              (waldS pooled (B + D) (A + C) x1 x2)) fuel⟩ := by
      unfold barnardCore
      rw [if_neg hdeg2]
      rfl
    refine ⟨_, _, e1, ?_⟩
    rw [e2]
    have hpv := maximisation_swap2 (A + C) (B + D)
      (fun x1 x2 => SVal.sle (waldS pooled (B + D) (A + C) B A)
        (waldS pooled (B + D) (A + C) x1 x2))
      (fun x1 x2 => SVal.sle (waldS pooled (A + C) (B + D) x1 x2)
        (waldS pooled (A + C) (B + D) A B))
      (fun x y => by
        simp only [hstat, waldS_swap pooled (A + C) (B + D) y x, sle_sneg])
      fuel
    rw [hpv, hstat]
  · have e1 : barnardCore A B C D "greater" pooled fuel =
        .ok ⟨some (waldS pooled (A + C) (B + D) A B),
          binomial_maximisation_of_p_value_with_nuisance_param (A + C) (B + D)
            (fun x1 x2 => SVal.sle (waldS pooled (A + C) (B + D) A B)
              (waldS pooled (A + C) (B + D) x1 x2)) fuel⟩ := by
      unfold barnardCore
      rw [if_neg hdeg1]
      rfl
    have e2 : barnardCore B A D C (swapAlt "greater") pooled fuel =
        .ok ⟨some (waldS pooled (B + D) (A + C) B A),
          binomial_maximisation_of_p_value_with_nuisance_param (B + D) (A + C)
            (fun x1 x2 => SVal.sle (waldS pooled (B + D) (A + C) x1 x2)
              (waldS pooled (B + D) (A + C) B A)) fuel⟩ := by
      unfold barnardCore
      rw [if_neg hdeg2]
      rfl
    refine ⟨_, _, e1, ?_⟩
    rw [e2]
    have hpv := maximisation_swap2 (A + C) (B + D)
      (fun x1 x2 => SVal.sle (waldS pooled (B + D) (A + C) x1 x2)
        (waldS pooled (B + D) (A + C) B A))
      (fun x1 x2 => SVal.sle (waldS pooled (A + C) (B + D) A B)
        (waldS pooled (A + C) (B + D) x1 x2))
      (fun x y => by
        simp only [hstat, waldS_swap pooled (A + C) (B + D) y x, sle_sneg])
      fuel
    rw [hpv, hstat]

/-- C9: swapping the two columns of a valid non-degenerate table (and
swapping "less" with "greater", keeping "two-sided") negates the reported
statistic and leaves the p-value unchanged. -/
theorem claim_C9_column_swap_symmetry (a b c d : ℤ) (ha : 0 ≤ a)
    (hb : 0 ≤ b) (hc : 0 ≤ c) (hd : 0 ≤ d) (h1 : a + c ≠ 0) (h2 : b + d ≠ 0)
    (alt : String)
    (halt : alt = "two-sided" ∨ alt = "less" ∨ alt = "greater")
    (pooled : Bool) (n_iter : ℤ) (hn : 0 < n_iter) :
    ∃ s p, barnard_exact [[a, b], [c, d]] alt pooled n_iter = .ok ⟨some s, p⟩ ∧
      barnard_exact [[b, a], [d, c]] (swapAlt alt) pooled n_iter =
        .ok ⟨some s.sneg, p⟩ ∧
      s.sneg.denote = -s.denote := by
  rw [barnard_exact_eq_core a b c d ha hb hc hd alt pooled n_iter hn,
    barnard_exact_eq_core b a d c hb ha hd hc (swapAlt alt) pooled n_iter hn]
  obtain ⟨s, p, e1, e2⟩ := barnardCore_swap a.toNat b.toNat c.toNat d.toNat alt
    halt pooled n_iter.toNat (by omega) (by omega)
  exact ⟨s, p, e1, e2, denote_sneg s⟩

/-- Closed witness for `claim_C9_column_swap_symmetry` on the table
`[[1, 2], [1, 1]]` with `alternative = "less"`. -/
theorem claim_C9_column_swap_symmetry_witness :
    ∃ s p, barnard_exact [[1, 2], [1, 1]] "less" true 3 = .ok ⟨some s, p⟩ ∧
      barnard_exact [[2, 1], [1, 1]] (swapAlt "less") true 3 =
        .ok ⟨some s.sneg, p⟩ ∧
      s.sneg.denote = -s.denote :=
  claim_C9_column_swap_symmetry 1 2 1 1 (by decide) (by decide) (by decide)
    (by decide) (by decide) (by decide) "less" (Or.inr (Or.inl rfl)) true 3
    (by decide)
